import Mathlib

/-!
# Verification of the pump_guard signal-based risk scoring engine

Shallow embedding of the core of the `pump_guard` repository:

* `src/pages/api/score.ts` — category-capped aggregator (`computeScoreWithCaps`,
  `categorizeSignalId`, `CATEGORY_MAX`, `clamp`), the fast scoring handler with
  its TTL cache and confidence estimation;
* `src/unnamed/part_002` — revised fast handler ("Confidence v1");
* `src/pages/api/score_deep.ts` — deep analysis liquidity branch and handler;
* `src/pages/api/holders.ts` — resumable holder-count job;
* `src/pages/index.tsx` — `mergeSignals`.

JavaScript numbers that the code actually manipulates here are finite doubles
produced by detectors or JSON, plus the `NaN` arising from `Number(...)` on
malformed input; they are modelled as `ℚ` together with an explicit `nan`
constructor.  Timestamps (`Date.now()`) are modelled as `ℕ` milliseconds.
-/

namespace PumpGuard

/-- A JavaScript numeric value as produced by `Number(x)`: either a finite
number (modelled as a rational) or `NaN` (from `undefined`, non-numeric
strings, objects…). -/
inductive JSNum
  | num (q : ℚ)
  | nan
deriving DecidableEq, Repr

/-- `Number(x) || 0` — the weight coercion used by `addSignal` and
`computeScoreWithCaps`: `NaN` and `0` are falsy and become `0`; every other
number (including negative ones) passes through unchanged. -/
def numOr0 : JSNum → ℚ
  | .num q => q
  | .nan => 0

/-- `lib/types.ts` risk level. -/
inductive RiskLevel
  | LOW | MEDIUM | HIGH
deriving DecidableEq, Repr

/-- `lib/types.ts` confidence. -/
inductive Confidence
  | LOW | MED | HIGH
deriving DecidableEq, Repr

/-- Live vs demo mode of the fast handler. -/
inductive Mode
  | LIVE | DEMO
deriving DecidableEq, Repr

/-- JavaScript `String.prototype.trim()`, modelled structurally over the
character list (drop whitespace at both ends). -/
def jsTrim (s : String) : String :=
  ⟨((s.data.dropWhile Char.isWhitespace).reverse.dropWhile Char.isWhitespace).reverse⟩

/-- JavaScript `String.prototype.startsWith(p)`, modelled structurally over
the character list. -/
def strStartsWith (s p : String) : Bool := s.data.take p.data.length == p.data

/-- `clamp` from `score.ts`: `Math.max(min, Math.min(max, n))`. -/
def clamp (n lo hi : ℚ) : ℚ := max lo (min hi n)

/-- `levelFromScore` from `score.ts`. -/
def levelFromScore (score : ℚ) : RiskLevel :=
  if 70 ≤ score then .HIGH
  else if 35 ≤ score then .MEDIUM
  else .LOW

/-- The fixed category set of the aggregator (`score.ts`). -/
inductive RiskCategory
  | PERMISSIONS | DISTRIBUTION | LIQUIDITY | DEV_CONTRACT | TX_PATTERNS | CONTEXT
deriving DecidableEq, Repr

/-- `CATEGORY_MAX` from `score.ts`. -/
def CATEGORY_MAX : RiskCategory → ℚ
  | .PERMISSIONS => 10
  | .DISTRIBUTION => 30
  | .LIQUIDITY => 10
  | .DEV_CONTRACT => 30
  | .TX_PATTERNS => 20
  | .CONTEXT => 0

/-- `categorizeSignalId` from `score.ts` (prefix/exact-match dispatch, in
source order; unmatched ids fall through to CONTEXT). -/
def categorizeSignalId (id : String) : RiskCategory :=
  if id = "MINT_AUTHORITY_PRESENT" ∨ id = "FREEZE_AUTHORITY_PRESENT" then
    .PERMISSIONS
  else if strStartsWith id "TOP10_" ∨ strStartsWith id "DEV_HOLDS_" then
    .DISTRIBUTION
  else if strStartsWith id "LP_" then
    .LIQUIDITY
  else if strStartsWith id "BLACKLIST_" ∨ strStartsWith id "TAX_" ∨
      strStartsWith id "TRANSFER_" ∨ strStartsWith id "HOOKS_" ∨
      strStartsWith id "NONSTANDARD_" then
    .DEV_CONTRACT
  else if strStartsWith id "DEV_DUMP_" ∨ strStartsWith id "BUNDLED_" ∨
      strStartsWith id "MEV_" ∨ strStartsWith id "CLUSTER_" then
    .TX_PATTERNS
  else if strStartsWith id "TOKEN_AGE_" ∨ strStartsWith id "DEV_" ∨
      strStartsWith id "CONTEXT_" then
    .CONTEXT
  else
    .CONTEXT

/-- A signal (`lib/types.ts`).  `weight` is a raw JS number (possibly `NaN`
when the producing layer was handed malformed data); `value` and `proof` are
carried verbatim and never used by scoring. -/
structure Signal where
  id : String
  label : String
  weight : JSNum
  value : String
  proof : List String
deriving DecidableEq, Repr

/-- The per-category accumulation loop of `computeScoreWithCaps`:
`totals[cat] += Number(s.weight) || 0` starting from all-zero totals. -/
def totalsFor (signals : List Signal) : RiskCategory → ℚ :=
  signals.foldl
    (fun t s =>
      Function.update t (categorizeSignalId s.id)
        (t (categorizeSignalId s.id) + numOr0 s.weight))
    (fun _ => 0)

/-- `Object.keys(totals)` enumeration order in `computeScoreWithCaps`. -/
def allCategories : List RiskCategory :=
  [.PERMISSIONS, .DISTRIBUTION, .LIQUIDITY, .DEV_CONTRACT, .TX_PATTERNS, .CONTEXT]

/-- `computeScoreWithCaps` from `score.ts`: accumulate weight per category,
clamp each category total to `[0, CATEGORY_MAX]`, sum, clamp to `[0, 100]`. -/
def computeScoreWithCaps (signals : List Signal) : ℚ :=
  let t := totalsFor signals
  clamp ((allCategories.map fun c => clamp (t c) 0 (CATEGORY_MAX c)).foldl (· + ·) 0) 0 100

/-- Replace the weight of every CONTEXT-category signal by `0`, leaving all
other signals untouched (the transformation quantified over in the
CONTEXT-neutrality property). -/
def zeroContextWeights (signals : List Signal) : List Signal :=
  signals.map fun s =>
    if categorizeSignalId s.id = .CONTEXT then { s with weight := .num 0 } else s

/-! ## Basic lemmas about the aggregator -/

theorem clamp_le (n lo hi : ℚ) (h : lo ≤ hi) : clamp n lo hi ≤ hi :=
  max_le h (min_le_left _ _)

theorem le_clamp (n lo hi : ℚ) : lo ≤ clamp n lo hi := le_max_left _ _

theorem clamp_zero_zero (n : ℚ) : clamp n 0 0 = 0 := by
  unfold clamp
  rcases le_total n 0 with h | h
  · rw [min_eq_right h, max_eq_left h]
  · rw [min_eq_left h, max_eq_right le_rfl]

/-- Pointwise characterization of the accumulation loop: the total of a
category is the sum of the coerced weights of the signals that categorize to
it. -/
theorem totalsFor_eq (signals : List Signal) (c : RiskCategory) :
    totalsFor signals c =
      (signals.map fun s =>
        if categorizeSignalId s.id = c then numOr0 s.weight else 0).sum := by
  suffices h : ∀ (t : RiskCategory → ℚ),
      signals.foldl
        (fun t s =>
          Function.update t (categorizeSignalId s.id)
            (t (categorizeSignalId s.id) + numOr0 s.weight)) t c =
      t c + (signals.map fun s =>
        if categorizeSignalId s.id = c then numOr0 s.weight else 0).sum by
    have := h (fun _ => 0)
    simpa [totalsFor] using this
  induction signals with
  | nil => intro t; simp
  | cons s rest ih =>
    intro t
    simp only [List.foldl_cons, List.map_cons, List.sum_cons]
    rw [ih]
    by_cases hc : categorizeSignalId s.id = c
    · subst hc
      simp [Function.update_same]
      ring
    · rw [Function.update_noteq (by simpa [eq_comm] using hc)]
      simp only [hc, if_false]
      ring

/-- The zeroing transformation keeps every non-CONTEXT category total
unchanged. -/
theorem totalsFor_zeroContext (signals : List Signal) (c : RiskCategory)
    (hc : c ≠ .CONTEXT) :
    totalsFor (zeroContextWeights signals) c = totalsFor signals c := by
  rw [totalsFor_eq, totalsFor_eq, zeroContextWeights, List.map_map]
  refine congrArg List.sum (List.map_congr_left fun s _ => ?_)
  by_cases hs : categorizeSignalId s.id = .CONTEXT
  · simp [Function.comp, hs, Ne.symm hc]
  · simp [Function.comp, hs]

/-- C1: for every list of signals, each per-category accumulated weight is
clamped into `[0, CATEGORY_MAX cat]` with the caps PERMISSIONS 10,
DISTRIBUTION 30, LIQUIDITY 10, DEV_CONTRACT 30, TX_PATTERNS 20, CONTEXT 0,
and the final score returned by `computeScoreWithCaps` lies in `[0, 100]`. -/
theorem computeScoreWithCaps_bounded :
    (∀ (signals : List Signal) (cat : RiskCategory),
        0 ≤ clamp (totalsFor signals cat) 0 (CATEGORY_MAX cat) ∧
        clamp (totalsFor signals cat) 0 (CATEGORY_MAX cat) ≤ CATEGORY_MAX cat) ∧
    CATEGORY_MAX .PERMISSIONS = 10 ∧ CATEGORY_MAX .DISTRIBUTION = 30 ∧
    CATEGORY_MAX .LIQUIDITY = 10 ∧ CATEGORY_MAX .DEV_CONTRACT = 30 ∧
    CATEGORY_MAX .TX_PATTERNS = 20 ∧ CATEGORY_MAX .CONTEXT = 0 ∧
    ∀ signals : List Signal,
      0 ≤ computeScoreWithCaps signals ∧ computeScoreWithCaps signals ≤ 100 := by
  refine ⟨fun signals cat => ?_, rfl, rfl, rfl, rfl, rfl, rfl, fun signals => ?_⟩
  · have hcap : (0 : ℚ) ≤ CATEGORY_MAX cat := by cases cat <;> norm_num [CATEGORY_MAX]
    exact ⟨le_clamp _ _ _, clamp_le _ _ _ hcap⟩
  · exact ⟨le_clamp _ _ _, clamp_le _ _ _ (by norm_num)⟩

/-- C2: CONTEXT-category signals never change the final score — replacing
the weight of every CONTEXT signal by zero leaves `computeScoreWithCaps`
unchanged, whatever the original weights were. -/
theorem computeScoreWithCaps_context_neutral (signals : List Signal) :
    computeScoreWithCaps (zeroContextWeights signals) = computeScoreWithCaps signals := by
  unfold computeScoreWithCaps
  simp only [allCategories, List.map_cons, List.map_nil]
  rw [totalsFor_zeroContext signals .PERMISSIONS (by simp),
    totalsFor_zeroContext signals .DISTRIBUTION (by simp),
    totalsFor_zeroContext signals .LIQUIDITY (by simp),
    totalsFor_zeroContext signals .DEV_CONTRACT (by simp),
    totalsFor_zeroContext signals .TX_PATTERNS (by simp)]
  simp only [CATEGORY_MAX, clamp_zero_zero]

/-- C2 witness: the theorem applied at a concrete signal list (a weighted
CONTEXT signal does not move the score). -/
theorem computeScoreWithCaps_context_neutral_witness :
    computeScoreWithCaps (zeroContextWeights
        [{ id := "DEV_CANDIDATE", label := "Dev wallet candidate",
           weight := .num 40, value := "", proof := [] }]) =
      computeScoreWithCaps
        [{ id := "DEV_CANDIDATE", label := "Dev wallet candidate",
           weight := .num 40, value := "", proof := [] }] :=
  computeScoreWithCaps_context_neutral _

/-- C9 counterexample: a signal whose weight is the (finite) number `-5` is
not coerced to a non-negative value — it contributes `-5` to its category's
accumulated weight, so the claimed invariant fails on the code. -/
theorem negative_weight_reaches_totals :
    totalsFor
        [{ id := "MINT_AUTHORITY_PRESENT", label := "Mint authority present",
           weight := .num (-5), value := "", proof := [] }] .PERMISSIONS
      = -5 ∧ (-5 : ℚ) < 0 := by
  constructor
  · rw [totalsFor_eq]
    norm_num [categorizeSignalId, numOr0]
  · norm_num

/-- C9 (amended): before aggregation a signal's weight goes through
`Number(w) || 0`: a malformed or missing weight (`NaN`) is treated as `0`,
while every finite value — negative ones included — passes through unchanged
and is added as-is to its category's accumulated weight; non-negativity of a
category's contribution is only restored afterwards by the per-category
clamp. -/
theorem weight_coercion_amended :
    (∀ (signals : List Signal) (c : RiskCategory),
        totalsFor signals c =
          (signals.map fun s =>
            if categorizeSignalId s.id = c then numOr0 s.weight else 0).sum) ∧
    numOr0 .nan = 0 ∧ (∀ q : ℚ, numOr0 (.num q) = q) ∧
    (∀ (signals : List Signal) (c : RiskCategory),
        0 ≤ clamp (totalsFor signals c) 0 (CATEGORY_MAX c)) :=
  ⟨totalsFor_eq, rfl, fun _ => rfl, fun _ _ => le_clamp _ _ _⟩

/-! ## Chain detection (`lib/detect.ts`, `src/unnamed/part_000`) -/

/-- The `Chain` union of `lib/types.ts`. -/
inductive Chain
  | sol | eth | bnb
deriving DecidableEq, Repr

/-- `ChainAuto`: a concrete chain or `"auto"`. -/
inductive ChainAuto
  | auto | fixed (c : Chain)
deriving DecidableEq, Repr

/-- One character of the base58 alphabet, the regex class `[1-9A-HJ-NP-Za-km-z]`. -/
def isBase58Char (c : Char) : Bool :=
  ('1' ≤ c && c ≤ '9') || ('A' ≤ c && c ≤ 'H') || ('J' ≤ c && c ≤ 'N') ||
  ('P' ≤ c && c ≤ 'Z') || ('a' ≤ c && c ≤ 'k') || ('m' ≤ c && c ≤ 'z')

/-- The EVM-address regex `/^0x[a-fA-F0-9]{40}$/` of `detectChain`. -/
def isEvmAddress (s : String) : Bool :=
  s.length = 42 && strStartsWith s "0x" &&
    (s.data.drop 2).all fun c =>
      c.isDigit || ('a' ≤ c && c ≤ 'f') || ('A' ≤ c && c ≤ 'F')

/-- The SOL-address regex `/^[1-9A-HJ-NP-Za-km-z]{32,44}$/` of `detectChain`. -/
def isSolAddress (s : String) : Bool :=
  32 ≤ s.length && s.length ≤ 44 && s.data.all isBase58Char

/-- `detectChain` from `lib/detect.ts`. -/
def detectChain (input : String) : Option Chain :=
  let s := jsTrim input
  if isEvmAddress s then some .eth
  else if isSolAddress s then some .sol
  else none

/-- `normalizeChain` from `lib/detect.ts`: `auto` resolves via `detectChain`,
defaulting to SOL. -/
def normalizeChain (chain : ChainAuto) (input : String) : Chain :=
  match chain with
  | .auto => (detectChain input).getD .sol
  | .fixed c => c

/-! ## Confidence estimation -/

/-- JS truthiness of an optional number field (`undefined` and `0` are
falsy). -/
def jsTruthyNum (x : Option ℚ) : Bool :=
  match x with
  | none => false
  | some q => q != 0

/-- JS truthiness of an optional string field (`undefined` and `""` are
falsy). -/
def jsTruthyStr (x : Option String) : Bool :=
  match x with
  | none => false
  | some s => s != ""

/-- JS comparison `x < b` on an optional number (`undefined < b` is false). -/
def jsNumLt (x : Option ℚ) (b : ℚ) : Bool :=
  match x with
  | none => false
  | some q => q < b

/-- Confidence upgrade of the live path of `score.ts` (lines 499-505):
starting from MED, confidence becomes HIGH when `age_seconds`,
`top10_percent`, `dev_candidate` and `process.env.HELIUS_API_KEY` are all
truthy.  There is no 24-hour age threshold in this version. -/
def confidenceFast (age top10 : Option ℚ) (dev : Option String)
    (heliusKey : Bool) : Confidence :=
  if jsTruthyNum age && jsTruthyNum top10 && jsTruthyStr dev && heliusKey then
    .HIGH
  else
    .MED

/-- The revised "Confidence v1" estimation of `src/unnamed/part_002`
(lines 698-713): LOW off the live path, LOW when the token age is unknown or
under 24h (86400 s), HIGH when age, known top10, dev candidate and the
Helius key are all present, otherwise MED. -/
def confidenceV1 (live : Bool) (age top10 : Option ℚ) (dev : Option String)
    (heliusKey : Bool) : Confidence :=
  if !live then .LOW
  else if !jsTruthyNum age || jsNumLt age 86400 then .LOW
  else if jsTruthyNum age && top10.isSome && jsTruthyStr dev && heliusKey then .HIGH
  else .MED

/-! ## TTL cache and the fast handler (`score.ts` lines 14-36, 458-569) -/

/-- `cacheGet` from `score.ts`: the entry for the key, if present, is a pair
`(ts, value)`; an entry older than `ttlMs` is treated as absent (and evicted
— the eviction side effect is irrelevant to the returned value and not
modelled).  Stored values are response objects, which are always truthy. -/
def cacheGet {α : Type} (entry : Option (Nat × α)) (now ttlMs : Nat) : Option α :=
  match entry with
  | none => none
  | some (ts, v) => if now - ts > ttlMs then none else some v

/-- Data the live scoring path (`solTokenSignals`) produces on success. -/
structure LiveData where
  signals : List Signal
  age_seconds : Option ℚ
  top10_percent : Option ℚ
  dev_candidate : Option String

/-- The `risk` block of a `ScoreResponse`. -/
structure ScoreRisk where
  score : ℚ
  level : RiskLevel
  confidence : Confidence
  mode : Mode
deriving DecidableEq, Repr

/-- Body of a fast-handler HTTP response: an error object or a score
response. -/
inductive FastBody
  | err (msg : String)
  | result (risk : ScoreRisk) (signals : List Signal)
deriving DecidableEq, Repr

/-- A fast-handler HTTP response: status code and JSON body. -/
structure FastResp where
  status : Nat
  body : FastBody
deriving DecidableEq, Repr

/-- `LIVE_ERROR` fallback signal pushed when the live path throws. -/
def liveErrorSignal (msg : String) : Signal :=
  { id := "LIVE_ERROR", label := "Live scoring failed, falling back to demo",
    weight := .num 0, value := msg, proof := [] }

/-- `DEMO_MODE` signal pushed on the demo fallback path. -/
def demoModeSignal : Signal :=
  { id := "DEMO_MODE", label := "Demo mode (missing RPC or API keys)",
    weight := .num 0, value := "", proof := [] }

/-- The fast scoring handler (`score.ts` lines 458-569).  `cacheEntry` is the
cache entry stored under the key built from the request URL
(`score:<req.url>`); `live` is the outcome of the live SOL scoring path
(`solTokenSignals`), which throws exactly when RPC fails or the input is not
a valid public key.  Order of checks is the source's: cache first, then
method, then missing input, then chain dispatch; a live-path exception falls
through to the demo response with the already-assigned `mode = LIVE` and
`confidence = MED`. -/
def fastHandler (cacheEntry : Option (Nat × FastBody)) (now : Nat)
    (method rawInput : String) (chainParam : ChainAuto)
    (live : Except String LiveData) (heliusKey : Bool) : FastResp :=
  match cacheGet cacheEntry now 120000 with
  | some v => ⟨200, v⟩
  | none =>
    if method ≠ "GET" then ⟨405, .err "Method not allowed"⟩
    else
      let input := jsTrim rawInput
      if input = "" then ⟨400, .err "Missing input"⟩
      else
        match normalizeChain chainParam input, live with
        | .sol, .ok r =>
          let score := computeScoreWithCaps r.signals
          ⟨200, .result
            ⟨score, levelFromScore score,
              confidenceFast r.age_seconds r.top10_percent r.dev_candidate heliusKey,
              .LIVE⟩
            r.signals⟩
        | .sol, .error e =>
          ⟨200, .result ⟨clamp 0 0 100, levelFromScore 0, .MED, .LIVE⟩
            [liveErrorSignal e, demoModeSignal]⟩
        | _, _ =>
          ⟨200, .result ⟨clamp 0 0 100, levelFromScore 0, .LOW, .DEMO⟩
            [demoModeSignal]⟩

/-! ## The deep handler (`score_deep.ts` lines 1133-1190) -/

/-- Body of a deep-handler response. -/
inductive DeepBody
  | err (msg : String)
  | ok (signals : List Signal)
deriving DecidableEq, Repr

/-- A deep-handler HTTP response. -/
structure DeepResp where
  status : Nat
  body : DeepBody
deriving DecidableEq, Repr

/-- The deep scoring handler (`score_deep.ts` lines 1133-1190).  `pkValid`
models which strings the `PublicKey` constructor accepts; `analysis` is the
outcome of `deepAnalyzeSol`, whose value is `none` when that function
returns `undefined` (the handler then substitutes an empty signal list) and
`Except.error` when it throws.  Source order: method, missing input, chain,
address validation, cache, analysis. -/
def deepHandler (method chain rawInput : String) (pkValid : String → Bool)
    (cacheEntry : Option (Nat × DeepBody)) (now : Nat)
    (analysis : Except String (Option (List Signal))) : DeepResp :=
  if method ≠ "GET" then ⟨405, .err "Method not allowed"⟩
  else
    let input := jsTrim rawInput
    if input = "" then ⟨400, .err "Missing input"⟩
    else if chain ≠ "sol" then ⟨400, .err "score_deep currently supports only SOL"⟩
    else if !pkValid input then ⟨400, .err "Invalid SOL mint address"⟩
    else
      match cacheGet cacheEntry now 120000 with
      | some v => ⟨200, v⟩
      | none =>
        match analysis with
        | .ok out => ⟨200, .ok (out.getD [])⟩
        | .error e => ⟨500, .err (if e = "" then "deep scoring failed" else e)⟩

/-! ## Claims about confidence and the handlers -/

/-- C4 counterexample: the fast handler (`score.ts`) reports HIGH confidence
for a token whose known age is 3600 s — one hour, far below the claimed
24-hour minimum — as long as top-10 concentration, a dev candidate and the
Helius key are present. -/
theorem confidence_high_without_day_old_token :
    confidenceFast (some 3600) (some 50) (some "DevWallet") true = .HIGH ∧
    (3600 : ℚ) < 86400 := by
  constructor
  · rfl
  · norm_num

/-- C4 (amended): the fast handler raises confidence to HIGH exactly when
token age is known and nonzero (with no 24-hour minimum), top-10
concentration is known and nonzero, a dev candidate was identified, and the
Helius credential is configured — otherwise the live path stays MED; only
the revised `part_002` estimator demands age ≥ 24 h for HIGH, and it reports
LOW (not MED) for live evaluations with unknown age or age under 24 h. -/
theorem confidence_high_characterization :
    (∀ (age top10 : Option ℚ) (dev : Option String) (k : Bool),
        (confidenceFast age top10 dev k = .HIGH ↔
          jsTruthyNum age = true ∧ jsTruthyNum top10 = true ∧
          jsTruthyStr dev = true ∧ k = true) ∧
        (confidenceFast age top10 dev k = .HIGH ∨
          confidenceFast age top10 dev k = .MED)) ∧
    (∀ (live : Bool) (age top10 : Option ℚ) (dev : Option String) (k : Bool),
        (confidenceV1 live age top10 dev k = .HIGH ↔
          live = true ∧ (∃ q : ℚ, age = some q ∧ q ≠ 0 ∧ 86400 ≤ q) ∧
          top10.isSome = true ∧ jsTruthyStr dev = true ∧ k = true) ∧
        (live = true → ¬(∃ q : ℚ, age = some q ∧ q ≠ 0 ∧ 86400 ≤ q) →
          confidenceV1 live age top10 dev k = .LOW)) := by
  constructor
  · intro age top10 dev k
    constructor
    · cases hA : jsTruthyNum age <;> cases hB : jsTruthyNum top10 <;>
        cases hD : jsTruthyStr dev <;> cases k <;>
        simp [confidenceFast, hA, hB, hD]
    · unfold confidenceFast
      split
      · exact Or.inl rfl
      · exact Or.inr rfl
  · intro live age top10 dev k
    cases live
    · simp [confidenceV1]
    · cases age with
      | none => simp [confidenceV1, jsTruthyNum, jsNumLt]
      | some q =>
        by_cases hq : q = 0
        · subst hq
          simp [confidenceV1, jsTruthyNum, jsNumLt]
        · by_cases hlt : q < 86400
          · have hnotge : ¬(86400 : ℚ) ≤ q := not_le.mpr hlt
            simp [confidenceV1, jsTruthyNum, jsNumLt, hq, hlt, hnotge]
          · have hge : (86400 : ℚ) ≤ q := not_lt.mp hlt
            cases hT : top10.isSome <;> cases hD : jsTruthyStr dev <;> cases k <;>
              simp [confidenceV1, jsTruthyNum, jsNumLt, hq, hlt, hge, hT, hD]

/-- C8 counterexample: a syntactically invalid subject address on the fast
endpoint is NOT rejected with a client error — the live path throws on the
bad public key and the handler answers 200 with the demo fallback. -/
theorem fast_invalid_address_not_rejected :
    (fastHandler none 0 "GET" "invalid-mint-address!!" ChainAuto.auto
        (Except.error "Invalid public key input") false).status = 200 ∧
    (fastHandler none 0 "GET" "invalid-mint-address!!" ChainAuto.auto
        (Except.error "Invalid public key input") false).status < 400 := by
  refine ⟨rfl, ?_⟩
  show (200 : Nat) < 400
  norm_num

/-- C8 (amended): only the deep endpoint rejects an invalid subject address
before any detector runs — it answers 400 whatever the cache or analysis
outcome would have been; the fast endpoint checks only method and input
presence, and an invalid address flows into the live path, whose failure
yields a 200 demo-fallback response rather than a 4xx. -/
theorem invalid_address_rejection_amended :
    (∀ (rawInput : String) (pkValid : String → Bool)
        (cacheEntry : Option (Nat × DeepBody)) (now : Nat)
        (analysis : Except String (Option (List Signal))),
        jsTrim rawInput ≠ "" → pkValid (jsTrim rawInput) = false →
        deepHandler "GET" "sol" rawInput pkValid cacheEntry now analysis =
          ⟨400, .err "Invalid SOL mint address"⟩) ∧
    (∀ (rawInput : String) (now : Nat) (e : String) (heliusKey : Bool),
        jsTrim rawInput ≠ "" →
        (fastHandler none now "GET" rawInput .auto (.error e) heliusKey).status = 200) := by
  constructor
  · intro rawInput pkValid cacheEntry now analysis hne hpk
    unfold deepHandler
    simp [hne, hpk]
  · intro rawInput now e heliusKey hne
    unfold fastHandler cacheGet
    cases hc : normalizeChain ChainAuto.auto (jsTrim rawInput) <;> simp [hne, hc]

/-- C8 witness: the amended theorem applied at a concrete invalid address. -/
theorem invalid_address_rejection_amended_witness :
    jsTrim "bad mint" ≠ "" ∧
    deepHandler "GET" "sol" "bad mint" (fun _ => false) none 0 (.ok (some [])) =
      ⟨400, .err "Invalid SOL mint address"⟩ ∧
    (fastHandler none 0 "GET" "bad mint" .auto
        (.error "Invalid public key input") false).status = 200 :=
  ⟨by decide,
   invalid_address_rejection_amended.1 "bad mint" _ none 0 _ (by decide) rfl,
   invalid_address_rejection_amended.2 "bad mint" 0 _ false (by decide)⟩

/-- C10: the fast handler consults the URL-keyed cache before the
HTTP-method check and the missing-input check, so any request whose cache
entry is younger than the 120 s TTL — whatever its method or input — gets
status 200 with the cached body instead of a 405 or 400. -/
theorem fastHandler_cache_before_checks (ts : Nat) (v : FastBody) (now : Nat)
    (method rawInput : String) (chainParam : ChainAuto)
    (live : Except String LiveData) (heliusKey : Bool)
    (hfresh : now - ts < 120000) :
    fastHandler (some (ts, v)) now method rawInput chainParam live heliusKey =
      ⟨200, v⟩ := by
  unfold fastHandler cacheGet
  have h : ¬(now - ts > 120000) := by omega
  simp [h]

/-- C10 witness: a non-GET request with empty input still gets the cached
body. -/
theorem fastHandler_cache_before_checks_witness :
    (100 : Nat) - 5 < 120000 ∧
    fastHandler (some (5, .result ⟨0, .LOW, .LOW, .DEMO⟩ [])) 100 "POST" ""
        .auto (.error "no live call") false =
      ⟨200, .result ⟨0, .LOW, .LOW, .DEMO⟩ []⟩ :=
  ⟨by norm_num,
   fastHandler_cache_before_checks 5 _ 100 "POST" "" .auto (.error "no live call")
     false (by norm_num)⟩

/-! ## Deep liquidity check (`score_deep.ts` lines 809-939) -/

/-- A pair discovered by `discoverTopPairViaDexScreener`. -/
structure DiscPair where
  dexId : String
  pairAddress : String
  url : Option String
deriving DecidableEq, Repr

/-- Result of `calcLpBurnedPct` (the burned fraction of LP supply). -/
structure BurnInfo where
  burnedPct : ℚ
deriving DecidableEq, Repr

/-- An `LP_STATUS_UNKNOWN` informational signal (weight 0); the label varies
with the branch that produced it.  Proof URLs are presentation-only and not
modelled. -/
def lpUnknownSignal (label : String) : Signal :=
  { id := "LP_STATUS_UNKNOWN", label := label, weight := .num 0, value := "",
    proof := [] }

/-- The weighted `LP_NOT_BURNED` signal (weight 10; its `value` field is a
formatted percentage, not modelled). -/
def lpNotBurnedSignal : Signal :=
  { id := "LP_NOT_BURNED", label := "LP not burned / unlocked",
    weight := .num 10, value := "", proof := [] }

/-- The informational `LP_OK` signal ("LP burned (>=95%)", weight 0). -/
def lpOkSignal : Signal :=
  { id := "LP_OK", label := "LP burned (>=95%)", weight := .num 0, value := "",
    proof := [] }

/-- Outcome of the deep liquidity block: the single LP signal it pushes into
the local array, or the stray bare `return;` taken on an invalid LP mint
(`score_deep.ts` line 891), which exits `deepAnalyzeSol` with `undefined`
and so discards everything accumulated. -/
inductive LpOutcome
  | sig (s : Signal)
  | abortUndefined
deriving DecidableEq, Repr

/-- The `LIQUIDITY (DEEP only)` block of `deepAnalyzeSol` (`score_deep.ts`
lines 834-939).  `disc` is the outcome of `discoverTopPairViaDexScreener`
(`Except.error` when it throws), `lpMintByPool` models
`fetchRaydiumLpMintByPoolId` (internally caught, so total),
`rayFallbackPoolId` the `discoverRaydiumPoolId` fallback, `pkValid` the
`new PublicKey` constructor's acceptance, and `burn` models
`calcLpBurnedPct`, whose thrown errors propagate to the block's outer
`catch`. -/
def lpBlock (disc : Except String (Option DiscPair))
    (lpMintByPool : String → Option String)
    (rayFallbackPoolId : Option String)
    (pkValid : String → Bool)
    (burn : String → Except String (Option BurnInfo)) : LpOutcome :=
  match disc with
  | .error _ => .sig (lpUnknownSignal "Liquidity status unknown (LP check error)")
  | .ok none => .sig (lpUnknownSignal "Liquidity status unknown (no pool detected)")
  | .ok (some d) =>
    if d.dexId = "pumpswap" then
      .sig (lpUnknownSignal "PumpSwap AMM (no LP token model)")
    else if d.dexId = "raydium" then
      let lpMint :=
        match lpMintByPool d.pairAddress with
        | some l => some l
        | none =>
          match rayFallbackPoolId with
          | some pid => lpMintByPool pid
          | none => none
      match lpMint with
      | none => .sig (lpUnknownSignal "Raydium pool detected but LP mint not resolved")
      | some l =>
        if !pkValid l then .abortUndefined
        else
          match burn l with
          | .error _ =>
            .sig (lpUnknownSignal "Liquidity status unknown (LP check error)")
          | .ok none =>
            .sig (lpUnknownSignal "LP mint resolved but burn status unknown (RPC)")
          | .ok (some b) =>
            if b.burnedPct < 95 / 100 then .sig lpNotBurnedSignal
            else .sig lpOkSignal
    else
      .sig (lpUnknownSignal "DEX detected, LP model not implemented")

/-- The value `deepAnalyzeSol` hands back to the handler: the liquidity
block's signal spliced between the Token-2022 check's signals and the
tx-pattern signals — unless the stray `return;` fired, in which case the
function returned `undefined` (`none`) and every signal is lost. -/
def deepAnalyzeSignals (t2022Signals txSignals : List Signal) (lp : LpOutcome) :
    Option (List Signal) :=
  match lp with
  | .abortUndefined => none
  | .sig s => some (t2022Signals ++ [s] ++ txSignals)

/-- C3 (the code contradicts its own `Always emit ONE of` comment): when a
Raydium pool is discovered but the Raydium API returns an LP mint string the
`PublicKey` constructor rejects, `deepAnalyzeSol` takes the stray bare
`return;` — so it returns `undefined`, the handler substitutes an empty
signal list, and the response carries ZERO liquidity-category signals
instead of exactly one. -/
theorem deep_zero_liquidity_signals_on_invalid_lp_mint :
    lpBlock (.ok (some ⟨"raydium", "POOL1", none⟩)) (fun _ => some "not a mint")
        none (fun s => s == "GoodMint11111111111111111111111111111111111")
        (fun _ => .ok none) = .abortUndefined ∧
    deepHandler "GET" "sol" "GoodMint11111111111111111111111111111111111"
        (fun s => s == "GoodMint11111111111111111111111111111111111") none 0
        (.ok (deepAnalyzeSignals [] []
          (lpBlock (.ok (some ⟨"raydium", "POOL1", none⟩))
            (fun _ => some "not a mint") none
            (fun s => s == "GoodMint11111111111111111111111111111111111")
            (fun _ => .ok none)))) =
      ⟨200, .ok []⟩ := by
  exact ⟨rfl, rfl⟩

/-! ## Resumable holder-count job (`holders.ts`) -/

/-- One token account of a `getTokenAccounts` page; `owner` and `amount`
may be absent in the upstream JSON. -/
structure TokenAccount where
  owner : Option String
  amount : Option ℚ
deriving DecidableEq, Repr

/-- One upstream page (`TokenAccountsResp`): accounts plus an optional
continuation cursor. -/
structure HPage where
  token_accounts : List TokenAccount
  cursor : Option String
deriving DecidableEq, Repr

/-- The stored job state (`HoldersState` in `holders.ts`); the JS `Set` of
owners is a finite set of strings. -/
structure HoldersState where
  owners : Finset String
  cursor : Option String
  pages : Nat
  startedAt : Nat
  updatedAt : Nat
deriving DecidableEq

/-- The slice of the shared cache the job touches for one mint: the entry
under `holders_job:<mint>` and the one under the separate key
`holders_final:<mint>` (which stores `{holders, ts}`). -/
structure HCache where
  job : Option HoldersState
  finalEntry : Option (Nat × Nat)
deriving DecidableEq

/-- JS truthiness of the continuation cursor (`!page?.cursor`): an absent or
empty-string cursor is falsy. -/
def truthyCursor : Option String → Bool
  | none => false
  | some c => c != ""

/-- `ta?.owner && (ta.amount ?? 0) > 0` — when a page account's owner joins
the owner set. -/
def countsAsHolder (ta : TokenAccount) : Bool :=
  jsTruthyStr ta.owner && decide (0 < ta.amount.getD 0)

/-- The page loop `for (const ta of arr) { if (...) state.owners.add(...) }`
starting from an existing owner set. -/
def addPageOwners (owners : Finset String) (accounts : List TokenAccount) :
    Finset String :=
  accounts.foldl
    (fun os ta => if countsAsHolder ta then insert (ta.owner.getD "") os else os)
    owners

/-- `JOB_TTL_MS = 10 * 60_000` from `holders.ts`. -/
def JOB_TTL_MS : Nat := 10 * 60000

/-- The JSON object one `step` call answers with (status plus the fields the
claims are about). -/
inductive StepOutcome
  | expired
  | done (holders pages : Nat)
  | running (pages holdersSoFar : Nat)
deriving DecidableEq, Repr

/-- One `action=step` call of the holders handler (`holders.ts` lines
89-158) for one mint.  `fetch` models one successful `getTokenAccounts` RPC
page keyed by the cursor sent (`none` on the first page); the `catch`/500
branch for a failing RPC is not exercised by the claims.  Source order:
missing state is replaced by a fresh one (`startedAt = now`), then the job
TTL guard runs, then exactly one page is fetched; a non-truthy cursor or an
empty page completes the job, stores the final count under the separate
`holders_final` key and deletes the job state. -/
def stepOnce (fetch : Option String → HPage) (now : Nat) (c : HCache) :
    StepOutcome × HCache :=
  let st :=
    match c.job with
    | some s => s
    | none => ⟨∅, none, 0, now, now⟩
  if now - st.startedAt > JOB_TTL_MS then
    (.expired, ⟨none, c.finalEntry⟩)
  else
    let page := fetch st.cursor
    let owners2 := addPageOwners st.owners page.token_accounts
    let pages2 := st.pages + 1
    if !truthyCursor page.cursor || page.token_accounts.isEmpty then
      (.done owners2.card pages2, ⟨none, some (owners2.card, now)⟩)
    else
      (.running pages2 owners2.card,
        ⟨some ⟨owners2, page.cursor, pages2, st.startedAt, now⟩, c.finalEntry⟩)

/-- A sequence of `step` calls at the given timestamps; returns the last
call's outcome (if any call was made) and the final cache. -/
def runSteps (fetch : Option String → HPage) :
    List Nat → HCache → Option StepOutcome × HCache
  | [], c => (none, c)
  | t :: ts, c =>
    let r := stepOnce fetch t c
    let rest := runSteps fetch ts r.2
    (some (rest.1.getD r.1), rest.2)

/-- `fetch` walks the page list from cursor `cur`: fetching `cur` yields the
first page; every page but the last is nonempty and carries a truthy cursor
leading to the next page; the last page's cursor is not truthy (the
upstream's end-of-pagination marker). -/
def FetchChain (fetch : Option String → HPage) :
    Option String → List HPage → Prop
  | _, [] => True
  | cur, p :: rest =>
    fetch cur = p ∧
    match rest with
    | [] => truthyCursor p.cursor = false
    | _ :: _ =>
      truthyCursor p.cursor = true ∧ p.token_accounts ≠ [] ∧
      FetchChain fetch p.cursor rest

/-- The owner set accumulated over a list of pages. -/
def pagesOwners (A : Finset String) : List HPage → Finset String
  | [] => A
  | p :: rest => pagesOwners (addPageOwners A p.token_accounts) rest

/-- Unfolding equation for `runSteps` on a nonempty time list. -/
theorem runSteps_cons (fetch : Option String → HPage) (t : Nat) (ts : List Nat)
    (c : HCache) :
    runSteps fetch (t :: ts) c =
      (some ((runSteps fetch ts (stepOnce fetch t c).2).1.getD
          (stepOnce fetch t c).1),
        (runSteps fetch ts (stepOnce fetch t c).2).2) := rfl

/-- Running one `step` per remaining page from a live job state finishes
with `done`, the distinct positive-balance owners counted, the job state
deleted and the final count stored under the `holders_final` key. -/
theorem runSteps_done (fetch : Option String → HPage) :
    ∀ (ps : List HPage) (times : List Nat) (A : Finset String)
      (cur : Option String) (p0 t0 u0 : Nat) (fin : Option (Nat × Nat)) (tl : Nat),
      ps ≠ [] → times.length = ps.length → times.getLast? = some tl →
      FetchChain fetch cur ps →
      (∀ t ∈ times, t - t0 ≤ JOB_TTL_MS) →
      runSteps fetch times ⟨some ⟨A, cur, p0, t0, u0⟩, fin⟩ =
        (some (.done (pagesOwners A ps).card (p0 + ps.length)),
         ⟨none, some ((pagesOwners A ps).card, tl)⟩) := by
  intro ps
  induction ps with
  | nil => intro times A cur p0 t0 u0 fin tl hne; exact absurd rfl hne
  | cons p rest ih =>
    intro times A cur p0 t0 u0 fin tl _ hlen hlast hchain httl
    cases times with
    | nil => simp at hlen
    | cons t ts =>
      have httl0 : ¬(t - t0 > JOB_TTL_MS) := by
        have := httl t (by simp)
        omega
      obtain ⟨hf, hrest⟩ := hchain
      cases rest with
      | nil =>
        have hts : ts = [] := by simpa using hlen
        subst hts
        have hc : truthyCursor p.cursor = false := hrest
        have htl : t = tl := by simpa using hlast
        subst htl
        have hstep : stepOnce fetch t ⟨some ⟨A, cur, p0, t0, u0⟩, fin⟩ =
            (.done (addPageOwners A p.token_accounts).card (p0 + 1),
              ⟨none, some ((addPageOwners A p.token_accounts).card, t)⟩) := by
          simp [stepOnce, httl0, hf, hc]
        rw [runSteps_cons, hstep]
        simp [runSteps, pagesOwners]
      | cons p2 rest2 =>
        obtain ⟨hcur, hne2, hchain2⟩ := hrest
        have hemp : p.token_accounts.isEmpty = false := by
          cases hacc : p.token_accounts with
          | nil => exact absurd hacc hne2
          | cons a l => rfl
        cases ts with
        | nil => simp at hlen
        | cons t2 ts2 =>
          have hlast2 : (t2 :: ts2).getLast? = some tl := by
            simpa [List.getLast?] using hlast
          have ihr := ih (t2 :: ts2) (addPageOwners A p.token_accounts) p.cursor
            (p0 + 1) t0 t fin tl (by simp)
            (by simpa using hlen) hlast2 hchain2
            (fun x hx => httl x (by simp [hx]))
          have hstep : stepOnce fetch t ⟨some ⟨A, cur, p0, t0, u0⟩, fin⟩ =
              (.running (p0 + 1) (addPageOwners A p.token_accounts).card,
                ⟨some ⟨addPageOwners A p.token_accounts, p.cursor, p0 + 1, t0, t⟩,
                  fin⟩) := by
            simp [stepOnce, httl0, hf, hcur, hemp]
          rw [runSteps_cons, hstep]
          simp only [ihr]
          simp only [pagesOwners, Option.getD_some]
          have hl : p0 + 1 + (p2 :: rest2).length = p0 + (p :: p2 :: rest2).length := by
            simp only [List.length_cons]
            omega
          rw [hl]

/-- C5: starting from no stored state, one `step` call per upstream page
drives the holders job to `done` after exactly `P = ps.length` calls,
reporting as `holders` the number of distinct owners holding a positive
balance (zero-balance accounts excluded); the final count is stored under
the separate `holders_final` key, the job state is deleted, and a further
`step` call behaves exactly as a fresh start (empty owner set, no cursor,
`startedAt = now`). -/
theorem holders_job_completes (fetch : Option String → HPage)
    (ps : List HPage) (t0 : Nat) (ts : List Nat) (tl : Nat)
    (hlen : (t0 :: ts).length = ps.length)
    (hlast : (t0 :: ts).getLast? = some tl)
    (hchain : FetchChain fetch none ps)
    (httl : ∀ t ∈ t0 :: ts, t - t0 ≤ JOB_TTL_MS) :
    runSteps fetch (t0 :: ts) ⟨none, none⟩ =
      (some (.done (pagesOwners ∅ ps).card ps.length),
       ⟨none, some ((pagesOwners ∅ ps).card, tl)⟩) ∧
    (∀ (g : Option String → HPage) (t : Nat) (fin : Option (Nat × Nat)),
      stepOnce g t ⟨none, fin⟩ = stepOnce g t ⟨some ⟨∅, none, 0, t, t⟩, fin⟩) := by
  constructor
  · have hne : ps ≠ [] := by
      intro h
      subst h
      simp at hlen
    have h0 : runSteps fetch (t0 :: ts) (⟨none, none⟩ : HCache) =
        runSteps fetch (t0 :: ts) ⟨some ⟨∅, none, 0, t0, t0⟩, none⟩ := rfl
    rw [h0]
    have := runSteps_done fetch ps (t0 :: ts) ∅ none 0 t0 t0 none tl hne hlen
      hlast hchain httl
    simpa using this
  · intro g t fin
    rfl

/-- Upstream page 1 of the C5 witness: `alice` holds 5, `bob` holds 0
(excluded), continuation cursor `CUR1`. -/
def hPage1 : HPage :=
  ⟨[⟨some "alice", some 5⟩, ⟨some "bob", some 0⟩], some "CUR1"⟩

/-- Upstream page 2 of the C5 witness: `carol` holds 3, `alice` appears
again (already counted); no continuation cursor. -/
def hPage2 : HPage :=
  ⟨[⟨some "carol", some 3⟩, ⟨some "alice", some 2⟩], none⟩

/-- Upstream of the C5 witness: the first fetch returns page 1, the fetch at
cursor `CUR1` returns page 2. -/
def hFetchW (cur : Option String) : HPage :=
  match cur with
  | some c => if c = "CUR1" then hPage2 else hPage1
  | none => hPage1

/-- C5 witness: two pages holding `alice`, `bob` (zero balance) and `carol`;
two `step` calls end `done` with `holders = 2` and the count stored under
the `holders_final` key. -/
theorem holders_job_completes_witness :
    (∀ t ∈ [100, 200], t - 100 ≤ JOB_TTL_MS) ∧
    FetchChain hFetchW none [hPage1, hPage2] ∧
    runSteps hFetchW [100, 200] ⟨none, none⟩ =
      (some (.done 2 2), ⟨none, some (2, 200)⟩) := by
  have hch : FetchChain hFetchW none [hPage1, hPage2] :=
    ⟨rfl, rfl, by decide, rfl, rfl⟩
  have httl : ∀ t ∈ [100, 200], t - 100 ≤ JOB_TTL_MS := by decide
  have h := (holders_job_completes hFetchW [hPage1, hPage2] 100 [200] 200
    rfl rfl hch httl).1
  have hcard : (pagesOwners ∅ [hPage1, hPage2]).card = 2 := by decide
  rw [hcard] at h
  exact ⟨httl, hch, h⟩

/-- C6: a `step` call on a stored job whose `startedAt` is more than the
10-minute job TTL in the past answers `expired` and deletes the job state,
leaving the `holders_final` entry untouched; the outcome is independent of
the upstream (no page is fetched, no owner is added). -/
theorem holders_step_expired (fetch g : Option String → HPage) (now : Nat)
    (st : HoldersState) (fin : Option (Nat × Nat))
    (hold : now - st.startedAt > JOB_TTL_MS) :
    stepOnce fetch now ⟨some st, fin⟩ = (.expired, ⟨none, fin⟩) ∧
    stepOnce fetch now ⟨some st, fin⟩ = stepOnce g now ⟨some st, fin⟩ := by
  have h1 : stepOnce fetch now ⟨some st, fin⟩ = (.expired, ⟨none, fin⟩) := by
    simp [stepOnce, hold]
  have h2 : stepOnce g now ⟨some st, fin⟩ = (.expired, ⟨none, fin⟩) := by
    simp [stepOnce, hold]
  exact ⟨h1, h1.trans h2.symm⟩

/-- C6 witness: a job started at time 0 stepped at `t = 600001` ms (past the
600000 ms TTL) expires and is deleted. -/
theorem holders_step_expired_witness :
    (600001 : Nat) - 0 > JOB_TTL_MS ∧
    stepOnce hFetchW 600001
        ⟨some ⟨∅, none, 0, 0, 0⟩, some (7, 3)⟩ =
      (.expired, ⟨none, some (7, 3)⟩) :=
  ⟨by norm_num [JOB_TTL_MS],
   (holders_step_expired hFetchW hFetchW 600001 ⟨∅, none, 0, 0, 0⟩ (some (7, 3))
     (by norm_num [JOB_TTL_MS])).1⟩

/-! ## Signal merger (`index.tsx` lines 90-95)

A JS `Map` keeps its keys in insertion order; `set` on an existing key
updates the value in place, on a new key appends.  The map is modelled as an
insertion-ordered association list. -/

/-- `Map.prototype.has`-style key test. -/
def hasKey (m : List (String × Signal)) (k : String) : Bool :=
  m.any fun p => p.1 == k

/-- `Map.prototype.set`. -/
def mapSet (m : List (String × Signal)) (k : String) (v : Signal) :
    List (String × Signal) :=
  if hasKey m k then m.map fun p => if p.1 = k then (k, v) else p
  else m ++ [(k, v)]

/-- The `forEach(s => map.set(s.id, s))` loop of `mergeSignals`. -/
def insertAll (m : List (String × Signal)) (l : List Signal) :
    List (String × Signal) :=
  l.foldl (fun acc s => mapSet acc s.id s) m

/-- `mergeSignals` from `index.tsx`: insert the base signals, then the deep
signals (deep overwrites base by id), and return `Array.from(map.values())`
— the values in key insertion order. -/
def mergeSignals (base deep : List Signal) : List Signal :=
  (insertAll (insertAll [] base) deep).map Prod.snd

/-- The last signal with id `k` in `l` — the value a JS `Map` holds at `k`
after inserting all of `l` in order. -/
def lastSig (l : List Signal) (k : String) : Option Signal :=
  l.reverse.find? fun s => s.id == k

/-- Association-list lookup (the pair stored at key `k`, if any). -/
def lookupK (m : List (String × Signal)) (k : String) :
    Option (String × Signal) :=
  m.find? fun p => p.1 == k

theorem insertAll_nil (m : List (String × Signal)) : insertAll m [] = m := rfl

theorem insertAll_cons (m : List (String × Signal)) (s : Signal)
    (l : List Signal) : insertAll m (s :: l) = insertAll (mapSet m s.id s) l := rfl

theorem hasKey_iff (m : List (String × Signal)) (k : String) :
    hasKey m k = true ↔ ∃ p ∈ m, p.1 = k := by
  simp [hasKey, List.any_eq_true]

theorem lastSig_nil (k : String) : lastSig [] k = none := rfl

theorem lastSig_cons (s : Signal) (l : List Signal) (k : String) :
    lastSig (s :: l) k =
      match lastSig l k with
      | some u => some u
      | none => if s.id = k then some s else none := by
  unfold lastSig
  rw [List.reverse_cons, List.find?_append]
  cases h : List.find? (fun t => t.id == k) l.reverse <;> simp [Option.or]

theorem lastSig_eq_none (l : List Signal) (k : String)
    (h : k ∉ l.map Signal.id) : lastSig l k = none := by
  apply List.find?_eq_none.mpr
  intro s hs
  simp only [beq_iff_eq]
  intro he
  exact h (he ▸ List.mem_map_of_mem Signal.id (List.mem_reverse.mp hs))

theorem lastSig_of_mem (l : List Signal) (s : Signal)
    (hnd : (l.map Signal.id).Nodup) (hs : s ∈ l) : lastSig l s.id = some s := by
  induction l with
  | nil => cases hs
  | cons t l ih =>
    simp only [List.map_cons, List.nodup_cons] at hnd
    rw [lastSig_cons]
    rcases List.mem_cons.mp hs with he | hm
    · subst he
      rw [lastSig_eq_none l s.id hnd.1]
      simp
    · rw [ih hnd.2 hm]

theorem find?_replaceKey (m : List (String × Signal)) (k' : String) (v : Signal)
    (k : String) :
    (m.map fun p => if p.1 = k' then (k', v) else p).find? (fun p => p.1 == k) =
      if k = k' then (m.find? fun p => p.1 == k').map (fun _ => (k', v))
      else m.find? fun p => p.1 == k := by
  induction m with
  | nil => by_cases hk : k = k' <;> simp [hk]
  | cons p m ih =>
    by_cases hp' : p.1 = k'
    · by_cases hk : k = k'
      · subst hk
        simp [List.find?_cons, hp']
      · have hk' : (k' == k) = false := beq_eq_false_iff_ne.mpr fun he => hk he.symm
        have hpk : (p.1 == k) = false := by
          rw [hp']
          exact hk'
        simp [List.find?_cons, hp', hk', hpk, ih, hk]
    · by_cases hk : k = k'
      · subst hk
        have hpk : (p.1 == k) = false := beq_eq_false_iff_ne.mpr hp'
        simp [List.find?_cons, hp', hpk, ih]
      · by_cases hpk : p.1 = k
        · simp [List.find?_cons, hp', hpk, hk]
        · have h1 : (p.1 == k) = false := beq_eq_false_iff_ne.mpr hpk
          simp [List.find?_cons, hp', h1, ih, hk]

theorem lookupK_mapSet (m : List (String × Signal)) (k' : String) (v : Signal)
    (k : String) :
    lookupK (mapSet m k' v) k =
      if k = k' then some (k', v) else lookupK m k := by
  unfold lookupK mapSet
  cases hh : hasKey m k'
  · rw [if_neg (by simp), List.find?_append]
    by_cases hk : k = k'
    · subst hk
      have hnone : m.find? (fun p => p.1 == k) = none := by
        cases hf : m.find? (fun p => p.1 == k) with
        | none => rfl
        | some p =>
          exfalso
          have hp := List.find?_some hf
          have hm := List.mem_of_find?_eq_some hf
          have hkk : hasKey m k = true :=
            (hasKey_iff m k).mpr ⟨p, hm, by simpa using hp⟩
          rw [hkk] at hh
          cases hh
      rw [hnone]
      simp [List.find?_cons]
    · have hk' : (k' == k) = false := beq_eq_false_iff_ne.mpr fun he => hk he.symm
      have hsingle : List.find? (fun p => p.1 == k) [(k', v)] = none := by
        simp [List.find?_cons, hk']
      rw [hsingle, Option.or_none, if_neg hk]
  · rw [if_pos rfl, find?_replaceKey]
    by_cases hk : k = k'
    · subst hk
      obtain ⟨p, hm, hp⟩ := (hasKey_iff m k).mp hh
      have hsome : (m.find? fun q => q.1 == k).isSome := by
        rw [List.find?_isSome]
        exact ⟨p, hm, by simpa using hp⟩
      cases hf : m.find? (fun q => q.1 == k) with
      | none => rw [hf] at hsome; cases hsome
      | some q => simp [hf]
    · simp [hk]

theorem lookupK_insertAll (l : List Signal) :
    ∀ (m : List (String × Signal)) (k : String),
      lookupK (insertAll m l) k =
        match lastSig l k with
        | some s => some (k, s)
        | none => lookupK m k := by
  induction l with
  | nil => intro m k; rw [insertAll_nil, lastSig_nil]
  | cons s l ih =>
    intro m k
    rw [insertAll_cons, ih, lastSig_cons]
    cases h : lastSig l k with
    | some u => rfl
    | none =>
      rw [lookupK_mapSet]
      by_cases hk : k = s.id
      · subst hk
        simp
      · have hk2 : ¬s.id = k := fun he => hk he.symm
        simp [hk, hk2]

theorem lookupK_insertAll_some (l : List Signal) (m : List (String × Signal))
    (k : String) (s : Signal) (h : lastSig l k = some s) :
    lookupK (insertAll m l) k = some (k, s) := by
  rw [lookupK_insertAll, h]

theorem lookupK_insertAll_none (l : List Signal) (m : List (String × Signal))
    (k : String) (h : lastSig l k = none) :
    lookupK (insertAll m l) k = lookupK m k := by
  rw [lookupK_insertAll, h]

theorem coherent_mapSet (m : List (String × Signal)) (k : String) (v : Signal)
    (hm : ∀ p ∈ m, p.1 = p.2.id) (hv : v.id = k) :
    ∀ p ∈ mapSet m k v, p.1 = p.2.id := by
  intro p hp
  unfold mapSet at hp
  split at hp
  · obtain ⟨q, hq, he⟩ := List.mem_map.mp hp
    by_cases hq' : q.1 = k
    · rw [if_pos hq'] at he
      rw [← he, hv]
    · rw [if_neg hq'] at he
      rw [← he]
      exact hm q hq
  · rcases List.mem_append.mp hp with h | h
    · exact hm p h
    · have he : p = (k, v) := by simpa using h
      rw [he, hv]

theorem coherent_insertAll (l : List Signal) :
    ∀ (m : List (String × Signal)), (∀ p ∈ m, p.1 = p.2.id) →
      ∀ p ∈ insertAll m l, p.1 = p.2.id := by
  induction l with
  | nil => intro m hm; simpa [insertAll_nil] using hm
  | cons s l ih =>
    intro m hm
    rw [insertAll_cons]
    exact ih _ (coherent_mapSet m s.id s hm rfl)

theorem keys_mapSet_of_hasKey (m : List (String × Signal)) (k : String)
    (v : Signal) (h : hasKey m k = true) :
    (mapSet m k v).map Prod.fst = m.map Prod.fst := by
  unfold mapSet
  rw [if_pos h, List.map_map]
  refine List.map_congr_left fun p _ => ?_
  by_cases hp : p.1 = k
  · simp [Function.comp, hp]
  · simp [Function.comp, hp]

theorem keys_mapSet_of_not_hasKey (m : List (String × Signal)) (k : String)
    (v : Signal) (h : hasKey m k = false) :
    (mapSet m k v).map Prod.fst = m.map Prod.fst ++ [k] := by
  unfold mapSet
  rw [if_neg (by simp [h]), List.map_append]
  rfl

theorem not_mem_keys_of_not_hasKey (m : List (String × Signal)) (k : String)
    (h : hasKey m k = false) : k ∉ m.map Prod.fst := by
  intro hmem
  obtain ⟨p, hp, he⟩ := List.mem_map.mp hmem
  have : hasKey m k = true := (hasKey_iff m k).mpr ⟨p, hp, he⟩
  rw [this] at h
  cases h

theorem nodupKeys_mapSet (m : List (String × Signal)) (k : String) (v : Signal)
    (h : (m.map Prod.fst).Nodup) : ((mapSet m k v).map Prod.fst).Nodup := by
  cases hk : hasKey m k
  · rw [keys_mapSet_of_not_hasKey m k v hk]
    have hkn : k ∉ m.map Prod.fst := not_mem_keys_of_not_hasKey m k hk
    simp [List.nodup_append, h, hkn]
  · rw [keys_mapSet_of_hasKey m k v hk]
    exact h

theorem nodupKeys_insertAll (l : List Signal) :
    ∀ m, (m.map Prod.fst).Nodup → ((insertAll m l).map Prod.fst).Nodup := by
  induction l with
  | nil => intro m h; simpa [insertAll_nil] using h
  | cons s l ih =>
    intro m h
    rw [insertAll_cons]
    exact ih _ (nodupKeys_mapSet m s.id s h)

theorem lookupK_of_mem (m : List (String × Signal)) (p : String × Signal)
    (hnd : (m.map Prod.fst).Nodup) (hp : p ∈ m) : lookupK m p.1 = some p := by
  induction m with
  | nil => cases hp
  | cons q m ih =>
    simp only [List.map_cons, List.nodup_cons] at hnd
    rcases List.mem_cons.mp hp with he | hm
    · subst he
      simp [lookupK, List.find?_cons]
    · have hq : (q.1 == p.1) = false := by
        refine beq_eq_false_iff_ne.mpr fun he => ?_
        exact hnd.1 (he ▸ List.mem_map_of_mem Prod.fst hm)
      have ih' := ih hnd.2 hm
      simpa [lookupK, List.find?_cons, hq] using ih'

theorem filter_keys_eq_lookupK (m : List (String × Signal)) (k : String)
    (hnd : (m.map Prod.fst).Nodup) :
    m.filter (fun p => p.1 == k) = (lookupK m k).toList := by
  induction m with
  | nil => rfl
  | cons q m ih =>
    simp only [List.map_cons, List.nodup_cons] at hnd
    by_cases hq : q.1 = k
    · have hnone : m.filter (fun p => p.1 == k) = [] := by
        apply List.filter_eq_nil_iff.mpr
        intro p hp
        simp only [beq_iff_eq]
        intro he
        apply hnd.1
        rw [hq, ← he]
        exact List.mem_map_of_mem Prod.fst hp
      simp [List.filter_cons, lookupK, List.find?_cons, hq, hnone]
    · have hq' : (q.1 == k) = false := beq_eq_false_iff_ne.mpr hq
      simpa [List.filter_cons, lookupK, List.find?_cons, hq'] using ih hnd.2

theorem filter_values (m : List (String × Signal)) (k : String)
    (hco : ∀ p ∈ m, p.1 = p.2.id) :
    (m.map Prod.snd).filter (fun t => t.id == k) =
      (m.filter fun p => p.1 == k).map Prod.snd := by
  rw [List.filter_map]
  congr 1
  refine List.filter_congr fun p hp => ?_
  simp only [Function.comp]
  rw [hco p hp]

/-- Shared core of the per-id merge facts: if the merged map stores `(k, s)`
at key `k`, the merged value list contains exactly `s` at id `k`. -/
theorem merge_filter_of_lookupK (base deep : List Signal) (k : String)
    (s : Signal)
    (hs : lookupK (insertAll (insertAll [] base) deep) k = some (k, s)) :
    (mergeSignals base deep).filter (fun t => t.id == k) = [s] := by
  have hco : ∀ p ∈ insertAll (insertAll [] base) deep, p.1 = p.2.id :=
    coherent_insertAll deep _ (coherent_insertAll base [] (by simp))
  have hnd : ((insertAll (insertAll [] base) deep).map Prod.fst).Nodup :=
    nodupKeys_insertAll deep _ (nodupKeys_insertAll base [] (by simp))
  unfold mergeSignals
  rw [filter_values _ k hco, filter_keys_eq_lookupK _ k hnd, hs]
  rfl

theorem keys_mono_mapSet (m : List (String × Signal)) (k : String) (v : Signal)
    (k0 : String) (h : k0 ∈ m.map Prod.fst) :
    k0 ∈ (mapSet m k v).map Prod.fst := by
  cases hk : hasKey m k
  · rw [keys_mapSet_of_not_hasKey m k v hk]
    exact List.mem_append_left _ h
  · rw [keys_mapSet_of_hasKey m k v hk]
    exact h

theorem key_mem_mapSet (m : List (String × Signal)) (k : String) (v : Signal) :
    k ∈ (mapSet m k v).map Prod.fst := by
  cases hk : hasKey m k
  · rw [keys_mapSet_of_not_hasKey m k v hk]
    simp
  · rw [keys_mapSet_of_hasKey m k v hk]
    obtain ⟨p, hp, he⟩ := (hasKey_iff m k).mp hk
    exact he ▸ List.mem_map_of_mem Prod.fst hp

theorem keys_mono_insertAll (l : List Signal) :
    ∀ (m : List (String × Signal)) (k0 : String), k0 ∈ m.map Prod.fst →
      k0 ∈ (insertAll m l).map Prod.fst := by
  induction l with
  | nil => intro m k0 h; simpa [insertAll_nil] using h
  | cons s l ih =>
    intro m k0 h
    rw [insertAll_cons]
    exact ih _ _ (keys_mono_mapSet m s.id s k0 h)

theorem mem_keys_insertAll (l : List Signal) (s : Signal) (hs : s ∈ l) :
    ∀ m, s.id ∈ (insertAll m l).map Prod.fst := by
  induction l with
  | nil => cases hs
  | cons t l ih =>
    intro m
    rw [insertAll_cons]
    rcases List.mem_cons.mp hs with he | hm
    · subst he
      exact keys_mono_insertAll l _ _ (key_mem_mapSet m s.id s)
    · exact ih hm _

/-- Folding the values of a coherent, key-nodup map back into an empty map
reproduces the map. -/
theorem insertAll_rebuild :
    ∀ (m m0 : List (String × Signal)),
      (∀ p ∈ m, p.1 = p.2.id) →
      (m0.map Prod.fst ++ m.map Prod.fst).Nodup →
      insertAll m0 (m.map Prod.snd) = m0 ++ m := by
  intro m
  induction m with
  | nil => intro m0 _ _; simp [insertAll_nil]
  | cons p m ih =>
    intro m0 hco hnd
    rw [List.map_cons, insertAll_cons]
    have hp1 : p.2.id = p.1 := (hco p (by simp)).symm
    have hnk : hasKey m0 p.1 = false := by
      cases hhh : hasKey m0 p.1
      · rfl
      · exfalso
        obtain ⟨q, hq, he⟩ := (hasKey_iff _ _).mp hhh
        have h1 : p.1 ∈ m0.map Prod.fst := he ▸ List.mem_map_of_mem Prod.fst hq
        have hdisj := (List.nodup_append.mp hnd).2.2
        exact hdisj h1 (by simp)
    rw [hp1]
    rw [show mapSet m0 p.1 p.2 = m0 ++ [(p.1, p.2)] from by
      unfold mapSet
      rw [if_neg (by simp [hnk])]]
    have hpair : m0 ++ [(p.1, p.2)] = m0 ++ [p] := by simp
    rw [hpair]
    rw [ih (m0 ++ [p]) (fun q hq => hco q (by simp [hq]))
      (by simpa [List.append_assoc] using hnd)]
    simp

/-- Re-inserting a signal list all of whose ids are already keys only
rewrites stored values in place: each key `k` now stores the last signal of
the list with id `k` (or its old value when the list has none). -/
theorem insertAll_overwrite (l : List Signal) :
    ∀ (m : List (String × Signal)), (∀ s ∈ l, s.id ∈ m.map Prod.fst) →
      insertAll m l =
        m.map fun p =>
          match lastSig l p.1 with
          | some u => (p.1, u)
          | none => p := by
  induction l with
  | nil =>
    intro m _
    simp [insertAll_nil, lastSig_nil]
  | cons s l ih =>
    intro m hkeys
    have hk : hasKey m s.id = true := by
      obtain ⟨p, hp, hpe⟩ := List.mem_map.mp (hkeys s (by simp))
      exact (hasKey_iff m s.id).mpr ⟨p, hp, hpe⟩
    rw [insertAll_cons]
    have hkeyseq : (mapSet m s.id s).map Prod.fst = m.map Prod.fst :=
      keys_mapSet_of_hasKey m s.id s hk
    rw [ih (mapSet m s.id s) (fun t ht => hkeyseq ▸ hkeys t (by simp [ht]))]
    rw [show mapSet m s.id s = m.map fun p => if p.1 = s.id then (s.id, s) else p
      from by unfold mapSet; rw [if_pos hk]]
    rw [List.map_map]
    refine List.map_congr_left fun p _ => ?_
    simp only [Function.comp]
    by_cases hp : p.1 = s.id
    · rw [if_pos hp, lastSig_cons, hp]
      cases hu : lastSig l s.id <;> simp [hu]
    · rw [if_neg hp, lastSig_cons]
      cases hu : lastSig l p.1 with
      | some u => simp [hu]
      | none =>
        have hne : ¬s.id = p.1 := fun he => hp he.symm
        simp [hu, hne]

/-- Idempotence of the merge: merging the deep list in a second time does
not change the merged list. -/
theorem mergeSignals_idem (a b : List Signal) :
    mergeSignals (mergeSignals a b) b = mergeSignals a b := by
  have hco : ∀ p ∈ insertAll (insertAll [] a) b, p.1 = p.2.id :=
    coherent_insertAll b _ (coherent_insertAll a [] (by simp))
  have hnd : ((insertAll (insertAll [] a) b).map Prod.fst).Nodup :=
    nodupKeys_insertAll b _ (nodupKeys_insertAll a [] (by simp))
  have hre : insertAll []
      ((insertAll (insertAll [] a) b).map Prod.snd) =
      insertAll (insertAll [] a) b := by
    have := insertAll_rebuild (insertAll (insertAll [] a) b) [] hco
      (by simpa using hnd)
    simpa using this
  have hkeys : ∀ s ∈ b,
      s.id ∈ (insertAll (insertAll [] a) b).map Prod.fst :=
    fun s hs => mem_keys_insertAll b s hs _
  have hover := insertAll_overwrite b (insertAll (insertAll [] a) b) hkeys
  have hfix : ((insertAll (insertAll [] a) b).map fun p =>
      match lastSig b p.1 with
      | some u => (p.1, u)
      | none => p) = insertAll (insertAll [] a) b := by
    have hmap : ∀ p ∈ insertAll (insertAll [] a) b,
        (match lastSig b p.1 with
          | some u => (p.1, u)
          | none => p) = p := by
      intro p hp
      cases hu : lastSig b p.1 with
      | none => rfl
      | some u =>
        have h1 : lookupK (insertAll (insertAll [] a) b) p.1 = some (p.1, u) :=
          lookupK_insertAll_some b _ p.1 u hu
        have h2 : lookupK (insertAll (insertAll [] a) b) p.1 = some p :=
          lookupK_of_mem _ p hnd hp
        have h3 : p = (p.1, u) := by
          have := h1.symm.trans h2
          exact (Option.some_injective _ this).symm
        simp only []
        exact h3.symm
    calc ((insertAll (insertAll [] a) b).map fun p =>
          match lastSig b p.1 with
          | some u => (p.1, u)
          | none => p)
        = (insertAll (insertAll [] a) b).map id := List.map_congr_left hmap
      _ = insertAll (insertAll [] a) b := List.map_id _
  show (insertAll (insertAll []
      ((insertAll (insertAll [] a) b).map Prod.snd)) b).map Prod.snd =
    (insertAll (insertAll [] a) b).map Prod.snd
  rw [hre, hover, hfix]

/-- C7: for every signal id present in both lists `mergeSignals base deep`
contains exactly the deep list's signal for that id; a signal whose id
appears in only one list is kept unchanged; and merging is idempotent:
merging the deep list in a second time changes nothing. -/
theorem mergeSignals_spec :
    (∀ (base deep : List Signal) (s : Signal),
        (deep.map Signal.id).Nodup → s ∈ deep →
        (mergeSignals base deep).filter (fun t => t.id == s.id) = [s]) ∧
    (∀ (base deep : List Signal) (s : Signal),
        (base.map Signal.id).Nodup → s ∈ base → s.id ∉ deep.map Signal.id →
        (mergeSignals base deep).filter (fun t => t.id == s.id) = [s]) ∧
    (∀ a b : List Signal, mergeSignals (mergeSignals a b) b = mergeSignals a b) := by
  refine ⟨?_, ?_, mergeSignals_idem⟩
  · intro base deep s hnd hs
    exact merge_filter_of_lookupK base deep s.id s
      (lookupK_insertAll_some deep _ s.id s (lastSig_of_mem deep s hnd hs))
  · intro base deep s hnd hs hnotin
    refine merge_filter_of_lookupK base deep s.id s ?_
    rw [lookupK_insertAll_none deep _ s.id (lastSig_eq_none deep s.id hnotin)]
    exact lookupK_insertAll_some base [] s.id s (lastSig_of_mem base s hnd hs)

/-- Signals for the C7 witness. -/
def wSigBase1 : Signal :=
  { id := "MINT_AUTHORITY_PRESENT", label := "Mint authority present",
    weight := .num 5, value := "", proof := [] }

/-- Fast-path LP placeholder for the C7 witness. -/
def wSigBase2 : Signal :=
  { id := "LP_STATUS_UNKNOWN", label := "LP status unknown (not detected yet)",
    weight := .num 0, value := "", proof := [] }

/-- Deep refinement of the LP signal for the C7 witness (same id as
`wSigBase2`). -/
def wSigDeep : Signal :=
  { id := "LP_STATUS_UNKNOWN", label := "PumpSwap AMM (no LP token model)",
    weight := .num 0, value := "", proof := [] }

/-- C7 witness: the theorem applied at concrete lists — the deep version
wins at the shared id, the base-only signal survives, and re-merging is a
no-op. -/
theorem mergeSignals_spec_witness :
    wSigDeep ∈ [wSigDeep] ∧
    (mergeSignals [wSigBase1, wSigBase2] [wSigDeep]).filter
        (fun t => t.id == wSigDeep.id) = [wSigDeep] ∧
    wSigBase1 ∈ [wSigBase1, wSigBase2] ∧
    (mergeSignals [wSigBase1, wSigBase2] [wSigDeep]).filter
        (fun t => t.id == wSigBase1.id) = [wSigBase1] ∧
    mergeSignals (mergeSignals [wSigBase1, wSigBase2] [wSigDeep]) [wSigDeep] =
      mergeSignals [wSigBase1, wSigBase2] [wSigDeep] :=
  ⟨by decide,
   mergeSignals_spec.1 [wSigBase1, wSigBase2] [wSigDeep] wSigDeep
     (by decide) (by decide),
   by decide,
   mergeSignals_spec.2.1 [wSigBase1, wSigBase2] [wSigDeep] wSigBase1
     (by decide) (by decide) (by decide),
   mergeSignals_spec.2.2 [wSigBase1, wSigBase2] [wSigDeep]⟩

end PumpGuard
